import Mathlib

/-!
Verification development for the herd-service repository.

The repository's `src/service/handlers.py` holds the legacy web handlers
(`handle_branch_commit`, `handle_build`); its collaborators — the generic
entity-store upsert `save` (m2/handlers.py), the hierarchy factories, the
config resolver, the getters/setters and the `runner` client — are exercised
by `src/service/test_handlers.py` but their sources are not part of the
source tree here, so they are modelled from the specification, as noted on
each definition.
-/

namespace Herd

/-- Modelled from the spec: values passed for any string-keyed column are
truncated at the first embedded NUL byte before being compared or stored
(spec §3 invariants, §4.1 step 1; the underlying store's text semantics). -/
def truncVal (s : String) : String :=
  ⟨s.data.takeWhile (fun c => c ≠ Char.ofNat 0)⟩

abbrev ColName := String

/-- A stored row: its assigned identifier and its column values. -/
structure Row where
  id : Nat
  vals : List (ColName × String)
deriving Repr, DecidableEq

/-- A table of the backing store, with the next identifier to assign. -/
structure Table where
  nextId : Nat
  rows : List Row
deriving Repr, DecidableEq

/-- Value of column `c` in an association list of column values. -/
def lookupCol (c : ColName) (vals : List (ColName × String)) : Option String :=
  (vals.find? (fun p => p.1 == c)).map (fun p => p.2)

/-- The column values a `save` call stores: `allCols` paired with the
NUL-truncated values. -/
def truncRow (allCols : List ColName) (values : List String) :
    List (ColName × String) :=
  allCols.zip (values.map truncVal)

/-- Does row `r` match the values of the unique columns of `tvals`? -/
def matchesUnique (uniqueCols : List ColName) (tvals : List (ColName × String))
    (r : Row) : Bool :=
  uniqueCols.all (fun c => lookupCol c r.vals == lookupCol c tvals)

/-- Modelled from the spec: the entity-store upsert
`save(table, unique_columns, all_columns, values) -> id` of m2/handlers.py is
not under src/; per spec §4.1 it truncates every string value at its first NUL
byte, looks for an existing row matching the unique-column values, returns
that row's identifier unmodified if found, and otherwise inserts a new row
with the truncated values and returns the newly assigned identifier. The
table argument of the Python function is the `Table` state threaded here. -/
def save (uniqueCols allCols : List ColName) (values : List String)
    (t : Table) : Nat × Table :=
  let tvals := truncRow allCols values
  match t.rows.find? (matchesUnique uniqueCols tvals) with
  | some r => (r.id, t)
  | none =>
      (t.nextId,
       { nextId := t.nextId + 1,
         rows := t.rows ++ [{ id := t.nextId, vals := tvals }] })

/-- Number of stored rows matching the given unique-column values. -/
def countMatching (uniqueCols : List ColName) (tvals : List (ColName × String))
    (t : Table) : Nat :=
  (t.rows.filter (matchesUnique uniqueCols tvals)).length

/-- A row's values always match themselves on the unique columns. -/
lemma matchesUnique_self (uniqueCols : List ColName)
    (tvals : List (ColName × String)) :
    matchesUnique uniqueCols tvals { id := n, vals := tvals } = true := by
  simp [matchesUnique]

lemma find?_eq_none_filter {α : Type} (p : α → Bool) (l : List α)
    (h : l.find? p = none) : l.filter p = [] := by
  rw [List.filter_eq_nil_iff]
  intro a ha
  exact List.find?_eq_none.mp h a ha

/-- `save` with the same arguments stabilises after the first call: the
second call returns the same identifier and leaves the table exactly as the
first call left it. -/
lemma save_save (uniqueCols allCols : List ColName) (values : List String)
    (t : Table) :
    save uniqueCols allCols values (save uniqueCols allCols values t).2
      = save uniqueCols allCols values t := by
  unfold save
  cases hf : t.rows.find? (matchesUnique uniqueCols (truncRow allCols values)) with
  | some r => simp [hf]
  | none =>
      simp only [hf]
      rw [List.find?_append, hf]
      simp [List.find?, matchesUnique_self]

/-- After `save` the table holds at least one row matching the key. -/
lemma countMatching_save_pos (uniqueCols allCols : List ColName)
    (values : List String) (t : Table) :
    1 ≤ countMatching uniqueCols (truncRow allCols values)
          (save uniqueCols allCols values t).2 := by
  unfold save countMatching
  cases hf : t.rows.find? (matchesUnique uniqueCols (truncRow allCols values)) with
  | some r =>
      have hr := List.mem_of_find?_eq_some hf
      have hp := List.find?_some hf
      simp only [hf]
      have : r ∈ t.rows.filter (matchesUnique uniqueCols (truncRow allCols values)) :=
        List.mem_filter.mpr ⟨hr, hp⟩
      exact List.length_pos.mpr (List.ne_nil_of_mem this)
  | none =>
      simp only [hf]
      rw [List.filter_append, find?_eq_none_filter _ _ hf]
      simp [matchesUnique_self]

/-- `save` never increases the matching-row count beyond `max 1 old`. -/
lemma countMatching_save_le (uniqueCols allCols : List ColName)
    (values : List String) (t : Table) :
    countMatching uniqueCols (truncRow allCols values)
        (save uniqueCols allCols values t).2
      ≤ max 1 (countMatching uniqueCols (truncRow allCols values) t) := by
  unfold save countMatching
  cases hf : t.rows.find? (matchesUnique uniqueCols (truncRow allCols values)) with
  | some r => simp [hf, le_max_right]
  | none =>
      simp only [hf]
      rw [List.filter_append, find?_eq_none_filter _ _ hf]
      simp [matchesUnique_self]

/-- **C1.** The entity-store upsert is idempotent: starting from a table with
at most one row stored for the unique key, calling `save` twice with the same
unique-column set, full-column set and values returns the same identifier
both times, the second call leaves the table exactly as the first call left
it (the stored row unchanged), and exactly one row matching the key is
stored after each of the two calls. -/
theorem save_idempotent (uniqueCols allCols : List ColName)
    (values : List String) (t : Table)
    (h : countMatching uniqueCols (truncRow allCols values) t ≤ 1) :
    (save uniqueCols allCols values (save uniqueCols allCols values t).2).1
        = (save uniqueCols allCols values t).1
      ∧ (save uniqueCols allCols values (save uniqueCols allCols values t).2).2
        = (save uniqueCols allCols values t).2
      ∧ countMatching uniqueCols (truncRow allCols values)
          (save uniqueCols allCols values t).2 = 1
      ∧ countMatching uniqueCols (truncRow allCols values)
          (save uniqueCols allCols values
            (save uniqueCols allCols values t).2).2 = 1 := by
  have hss := save_save uniqueCols allCols values t
  have h1 := countMatching_save_pos uniqueCols allCols values t
  have h2 := countMatching_save_le uniqueCols allCols values t
  have hone : countMatching uniqueCols (truncRow allCols values)
      (save uniqueCols allCols values t).2 = 1 := by
    omega
  refine ⟨by rw [hss], by rw [hss], hone, by rw [hss]; exact hone⟩

/-- Witness for C1 at the test's concrete input: saving the service
`mock_service` twice into an empty store. -/
theorem save_idempotent_witness :
    countMatching ["service_name"] (truncRow ["service_name"] ["mock_service"])
        { nextId := 1, rows := [] } ≤ 1
      ∧ ((save ["service_name"] ["service_name"] ["mock_service"]
            (save ["service_name"] ["service_name"] ["mock_service"]
              { nextId := 1, rows := [] }).2).1
          = (save ["service_name"] ["service_name"] ["mock_service"]
              { nextId := 1, rows := [] }).1
        ∧ (save ["service_name"] ["service_name"] ["mock_service"]
            (save ["service_name"] ["service_name"] ["mock_service"]
              { nextId := 1, rows := [] }).2).2
          = (save ["service_name"] ["service_name"] ["mock_service"]
              { nextId := 1, rows := [] }).2
        ∧ countMatching ["service_name"] (truncRow ["service_name"] ["mock_service"])
            (save ["service_name"] ["service_name"] ["mock_service"]
              { nextId := 1, rows := [] }).2 = 1
        ∧ countMatching ["service_name"] (truncRow ["service_name"] ["mock_service"])
            (save ["service_name"] ["service_name"] ["mock_service"]
              (save ["service_name"] ["service_name"] ["mock_service"]
                { nextId := 1, rows := [] }).2).2 = 1) :=
  ⟨by decide,
   save_idempotent ["service_name"] ["service_name"] ["mock_service"]
     { nextId := 1, rows := [] } (by decide)⟩

/-- Two candidate payloads that agree on the unique columns give the same
match verdict on every row. -/
lemma matchesUnique_congr (uniqueCols : List ColName)
    (tv tv' : List (ColName × String))
    (hagree : ∀ c ∈ uniqueCols, lookupCol c tv' = lookupCol c tv) (r : Row) :
    matchesUnique uniqueCols tv' r = matchesUnique uniqueCols tv r := by
  unfold matchesUnique
  cases h : uniqueCols.all (fun c => lookupCol c r.vals == lookupCol c tv) with
  | true =>
      rw [List.all_eq_true] at h ⊢
      intro c hc
      rw [hagree c hc]
      exact h c hc
  | false =>
      rw [List.all_eq_false] at h ⊢
      obtain ⟨c, hc, hne⟩ := h
      refine ⟨c, hc, ?_⟩
      rw [hagree c hc]
      exact hne

lemma find?_congr {α : Type} (p q : α → Bool) (l : List α)
    (h : ∀ a, p a = q a) : l.find? p = l.find? q := by
  induction l with
  | nil => rfl
  | cons a l ih =>
      simp only [List.find?, h a]
      cases q a with
      | true => rfl
      | false => exact ih

/-- **C2.** First writer wins on non-key columns: once a `save` has stored a
row for a unique key, a subsequent `save` that supplies values agreeing on
the unique columns but differing on the non-unique columns (for example a
different `image_name` for an existing `(commit_hash, branch_id)` iteration)
returns the identifier the first call returned and leaves the whole table —
in particular every non-unique column of the stored row — exactly as the
first call left it. -/
theorem save_first_writer_wins (uniqueCols allCols : List ColName)
    (values values' : List String) (t : Table)
    (hagree : ∀ c ∈ uniqueCols,
      lookupCol c (truncRow allCols values') = lookupCol c (truncRow allCols values)) :
    (save uniqueCols allCols values' (save uniqueCols allCols values t).2).1
        = (save uniqueCols allCols values t).1
      ∧ (save uniqueCols allCols values' (save uniqueCols allCols values t).2).2
        = (save uniqueCols allCols values t).2 := by
  have hcongr : ∀ r, matchesUnique uniqueCols (truncRow allCols values') r
      = matchesUnique uniqueCols (truncRow allCols values) r :=
    matchesUnique_congr uniqueCols _ _ hagree
  unfold save
  cases hf : t.rows.find? (matchesUnique uniqueCols (truncRow allCols values)) with
  | some r =>
      simp only [hf]
      rw [find?_congr _ _ _ hcongr, hf]
      exact ⟨rfl, rfl⟩
  | none =>
      simp only [hf]
      rw [List.find?_append, find?_congr _ _ _ hcongr, hf]
      simp only [List.find?,
        hcongr { id := t.nextId, vals := truncRow allCols values },
        matchesUnique_self]
      exact ⟨rfl, rfl⟩

/-- Witness for C2 at the test's concrete input: saving
`(commit_hash, branch_id, image_name) = (c, 1, A)` and then `(c, 1, B)`
returns the first identifier and leaves `image_name = A` stored. -/
theorem save_first_writer_wins_witness :
    (∀ c ∈ ["commit_hash", "branch_id"],
      lookupCol c (truncRow ["commit_hash", "branch_id", "image_name"] ["c", "1", "B"])
        = lookupCol c (truncRow ["commit_hash", "branch_id", "image_name"] ["c", "1", "A"]))
      ∧ ((save ["commit_hash", "branch_id"] ["commit_hash", "branch_id", "image_name"]
            ["c", "1", "B"]
            (save ["commit_hash", "branch_id"] ["commit_hash", "branch_id", "image_name"]
              ["c", "1", "A"] { nextId := 1, rows := [] }).2).1
          = (save ["commit_hash", "branch_id"] ["commit_hash", "branch_id", "image_name"]
              ["c", "1", "A"] { nextId := 1, rows := [] }).1
        ∧ (save ["commit_hash", "branch_id"] ["commit_hash", "branch_id", "image_name"]
            ["c", "1", "B"]
            (save ["commit_hash", "branch_id"] ["commit_hash", "branch_id", "image_name"]
              ["c", "1", "A"] { nextId := 1, rows := [] }).2).2
          = (save ["commit_hash", "branch_id"] ["commit_hash", "branch_id", "image_name"]
              ["c", "1", "A"] { nextId := 1, rows := [] }).2)
      ∧ ((save ["commit_hash", "branch_id"] ["commit_hash", "branch_id", "image_name"]
            ["c", "1", "A"] { nextId := 1, rows := [] }).2).rows
        = [{ id := 1, vals := [("commit_hash", "c"), ("branch_id", "1"),
                               ("image_name", "A")] }] :=
  ⟨by decide,
   save_first_writer_wins ["commit_hash", "branch_id"]
     ["commit_hash", "branch_id", "image_name"] ["c", "1", "A"] ["c", "1", "B"]
     { nextId := 1, rows := [] } (by decide),
   by decide⟩

/-- **C6.** NUL truncation: every string value passed to `save` is truncated
at its first embedded NUL byte before being compared and stored — two `save`
calls whose values differ only after the first NUL byte behave identically
(they match the same row, return the same identifier and produce the same
store), and any row a `save` call inserts holds the NUL-truncated values. -/
theorem save_nul_truncation (uniqueCols allCols : List ColName)
    (values values' : List String) (t : Table)
    (h : values.map truncVal = values'.map truncVal) :
    save uniqueCols allCols values t = save uniqueCols allCols values' t
      ∧ ∀ r ∈ (save uniqueCols allCols values t).2.rows,
          r ∈ t.rows ∨ r.vals = allCols.zip (values.map truncVal) := by
  constructor
  · unfold save truncRow
    rw [h]
  · unfold save truncRow
    cases hf : t.rows.find?
        (matchesUnique uniqueCols (allCols.zip (values.map truncVal))) with
    | some r =>
        simp only [hf]
        intro r hr
        exact Or.inl hr
    | none =>
        simp only [hf]
        intro r hr
        rcases List.mem_append.mp hr with hl | hr'
        · exact Or.inl hl
        · right
          rcases List.mem_singleton.mp hr' with rfl
          rfl

/-- Witness for C6 at the test's concrete input: values differing only after
an embedded NUL byte (`something\x00weird` vs `something\x00else`) behave
identically, and the stored value is the truncated `something`. -/
theorem save_nul_truncation_witness :
    (["c", "1", "something\x00weird"].map truncVal
        = ["c", "1", "something\x00else"].map truncVal)
      ∧ (save ["commit_hash", "branch_id"] ["commit_hash", "branch_id", "image_name"]
            ["c", "1", "something\x00weird"] { nextId := 1, rows := [] }
          = save ["commit_hash", "branch_id"] ["commit_hash", "branch_id", "image_name"]
              ["c", "1", "something\x00else"] { nextId := 1, rows := [] }
        ∧ ∀ r ∈ (save ["commit_hash", "branch_id"]
              ["commit_hash", "branch_id", "image_name"]
              ["c", "1", "something\x00weird"] { nextId := 1, rows := [] }).2.rows,
            r ∈ ({ nextId := 1, rows := [] } : Table).rows
              ∨ r.vals = ["commit_hash", "branch_id", "image_name"].zip
                  (["c", "1", "something\x00weird"].map truncVal))
      ∧ truncVal "something\x00weird" = "something" :=
  ⟨by decide,
   save_nul_truncation ["commit_hash", "branch_id"]
     ["commit_hash", "branch_id", "image_name"]
     ["c", "1", "something\x00weird"] ["c", "1", "something\x00else"]
     { nextId := 1, rows := [] } (by decide),
   by decide⟩

/-- A branch row of the relational schema (spec §6). -/
structure BranchRow where
  branch_id : Nat
  branch_name : String
  merge_base_commit_hash : String
  service_id : Nat
deriving Repr, DecidableEq

/-- An iteration row: one commit observed on one branch (spec §3, §6). -/
structure IterRow where
  iteration_id : Nat
  commit_hash : String
  branch_id : Nat
  image_name : String
deriving Repr, DecidableEq

/-- A release row binding an iteration to a config and a pipeline (spec §3, §6). -/
structure ReleaseRow where
  release_id : Nat
  iteration_id : Nat
  config_id : Nat
  pipeline_id : Nat
deriving Repr, DecidableEq

/-- A config row: the serialized key/value mapping (spec §3, §6). -/
structure ConfigRow where
  config_id : Nat
  key_value_pairs : String
deriving Repr, DecidableEq

/-- An automatic pipeline configured for a branch (spec §4.4 step 4). -/
structure PipelineRow where
  pipeline_id : Nat
  branch_id : Nat
deriving Repr, DecidableEq

/-- The relational state the resolver and the build handlers read and write. -/
structure DB where
  branches : List BranchRow
  iterations : List IterRow
  releases : List ReleaseRow
  configs : List ConfigRow
  pipelines : List PipelineRow
  nextConfigId : Nat
  nextReleaseId : Nat
deriving Repr, DecidableEq

/-- Is `iid` the identifier of an iteration stored on branch `bid`? -/
def iterOnBranch (db : DB) (bid iid : Nat) : Bool :=
  db.iterations.any (fun it => it.iteration_id == iid && it.branch_id == bid)

/-- Modelled from the spec: the releases spec §4.3 step 1 ranges over — those
whose iteration belongs to the given branch, excluding the iteration `cur`
currently being processed. -/
def branchLocalReleases (db : DB) (bid cur : Nat) : List ReleaseRow :=
  db.releases.filter
    (fun r => !(r.iteration_id == cur) && iterOnBranch db bid r.iteration_id)

/-- Is `iid` an iteration sharing the branch's merge-base commit hash, on any
branch of the same service (spec §4.3 step 2)? -/
def isMergeBaseIter (db : DB) (b : BranchRow) (iid : Nat) : Bool :=
  db.iterations.any (fun it =>
    it.iteration_id == iid && it.commit_hash == b.merge_base_commit_hash &&
    db.branches.any (fun br =>
      br.branch_id == it.branch_id && br.service_id == b.service_id))

/-- Modelled from the spec: the releases spec §4.3 step 2 ranges over — those
attached to the iteration(s) carrying the branch's merge-base commit hash on
any branch of the same service. -/
def mergeBaseReleases (db : DB) (b : BranchRow) : List ReleaseRow :=
  db.releases.filter (fun r => isMergeBaseIter db b r.iteration_id)

/-- The most recent release of a list: the one with the greatest creation
order, i.e. the greatest `release_id` (spec §4.3 tie-break rule). -/
def mostRecent : List ReleaseRow → Option ReleaseRow
  | [] => none
  | r :: rs =>
      match mostRecent rs with
      | none => some r
      | some m => if r.release_id < m.release_id then some m else some r

/-- Modelled from the spec: idempotent creation of a config row via the 4.1
upsert — find the row whose serialized pairs match the (NUL-truncated) value,
else insert one with the next identifier (spec §4.3 step 3). -/
def idemMakeConfig (db : DB) (kvp : String) : Nat × DB :=
  match db.configs.find? (fun c => c.key_value_pairs == truncVal kvp) with
  | some c => (c.config_id, db)
  | none =>
      (db.nextConfigId,
       { db with
           configs := db.configs ++ [⟨db.nextConfigId, truncVal kvp⟩],
           nextConfigId := db.nextConfigId + 1 })

/-- Modelled from the spec: the Config Resolver of spec §4.3 is not under
src/ (only its integration tests are). Step 1: most recent release on the
same branch, excluding the current iteration. Step 2: most recent release
attached to the merge-base iteration(s). Step 3: the empty config,
idempotently created. -/
def resolveConfig (db : DB) (b : BranchRow) (cur : Nat) : Nat × DB :=
  match mostRecent (branchLocalReleases db b.branch_id cur) with
  | some r => (r.config_id, db)
  | none =>
      match mostRecent (mergeBaseReleases db b) with
      | some r => (r.config_id, db)
      | none => idemMakeConfig db ""

/-- Modelled from the spec: spec §4.4 step 3 — create a Release row binding
the iteration to the resolved config (and a pipeline reference). -/
def createRelease (db : DB) (iid cid pid : Nat) : Nat × DB :=
  (db.nextReleaseId,
   { db with
       releases := db.releases ++ [⟨db.nextReleaseId, iid, cid, pid⟩],
       nextReleaseId := db.nextReleaseId + 1 })

/-- Resolve the config for iteration `cur` on branch `b`, then create the
release binding `cur` to it (spec §4.4 steps 3). -/
def resolveAndRelease (db : DB) (b : BranchRow) (cur pid : Nat) : Nat × DB :=
  let res := resolveConfig db b cur
  createRelease res.2 cur res.1 pid

lemma mostRecent_eq_none {l : List ReleaseRow} : mostRecent l = none ↔ l = [] := by
  constructor
  · intro h
    cases l with
    | nil => rfl
    | cons a l =>
        unfold mostRecent at h
        cases hm : mostRecent l with
        | none => rw [hm] at h; simp at h
        | some m =>
            rw [hm] at h
            by_cases hlt : a.release_id < m.release_id <;> simp [hlt] at h
  · intro h
    subst h
    rfl

lemma mostRecent_mem {l : List ReleaseRow} {m : ReleaseRow}
    (h : mostRecent l = some m) : m ∈ l := by
  induction l generalizing m with
  | nil => simp [mostRecent] at h
  | cons a l ih =>
      unfold mostRecent at h
      cases hm : mostRecent l with
      | none =>
          rw [hm] at h
          cases h
          exact List.mem_cons_self a l
      | some m' =>
          rw [hm] at h
          have h2 : (if a.release_id < m'.release_id then some m' else some a)
              = some m := h
          by_cases hlt : a.release_id < m'.release_id
          · rw [if_pos hlt] at h2
            cases h2
            exact List.mem_cons_of_mem a (ih hm)
          · rw [if_neg hlt] at h2
            cases h2
            exact List.mem_cons_self a l

lemma mostRecent_le {l : List ReleaseRow} {m : ReleaseRow}
    (h : mostRecent l = some m) :
    ∀ x ∈ l, x.release_id ≤ m.release_id := by
  induction l generalizing m with
  | nil => simp [mostRecent] at h
  | cons a l ih =>
      unfold mostRecent at h
      cases hm : mostRecent l with
      | none =>
          rw [hm] at h
          cases h
          rw [mostRecent_eq_none] at hm
          subst hm
          intro x hx
          rcases List.mem_singleton.mp hx with rfl
          exact le_refl _
      | some m' =>
          rw [hm] at h
          have h2 : (if a.release_id < m'.release_id then some m' else some a)
              = some m := h
          by_cases hlt : a.release_id < m'.release_id
          · rw [if_pos hlt] at h2
            cases h2
            intro x hx
            rcases List.mem_cons.mp hx with rfl | hx'
            · exact le_of_lt hlt
            · exact ih hm x hx'
          · rw [if_neg hlt] at h2
            cases h2
            intro x hx
            rcases List.mem_cons.mp hx with rfl | hx'
            · exact le_refl _
            · exact le_trans (ih hm x hx') (not_lt.mp hlt)

/-- The database of the integration tests' setUp context: service `s` (id 1)
with branches `m`, `b`, `b2`, iterations `mb/i0`, `c/i`, `c2/i2`, `c3/i3` and
one release per iteration, with differentiated configs (hstore-normalized
serializations, as the tests observe them). -/
def testDB : DB :=
  { branches := [⟨1, "m", "mb", 1⟩, ⟨2, "b", "mb", 1⟩, ⟨3, "b2", "c2", 1⟩],
    iterations := [⟨1, "mb", 1, "i0"⟩, ⟨2, "c", 2, "i"⟩,
                   ⟨3, "c2", 2, "i2"⟩, ⟨4, "c3", 3, "i3"⟩],
    releases := [⟨1, 1, 1, 0⟩, ⟨2, 2, 2, 0⟩, ⟨3, 3, 3, 0⟩, ⟨4, 4, 4, 0⟩],
    configs := [⟨1, "\"I\"=>\"0\""⟩, ⟨2, "\"A\"=>\"a\""⟩,
                ⟨3, "\"B\"=>\"b\""⟩, ⟨4, "\"C\"=>\"c\""⟩],
    pipelines := [⟨1, 2⟩],
    nextConfigId := 5,
    nextReleaseId := 5 }

/-- The test context extended with the new iteration `c4/i4` on branch `b`. -/
def testDB_c4 : DB :=
  { testDB with iterations := testDB.iterations ++ [⟨5, "c4", 2, "i4"⟩] }

/-- The test context extended with branch `b3` (merge base `c`) and the new
iteration `c6/i6` on it. -/
def testDB_c6 : DB :=
  { testDB with
      branches := testDB.branches ++ [⟨4, "b3", "c", 1⟩],
      iterations := testDB.iterations ++ [⟨5, "c6", 4, "i6"⟩] }

/-- A brand-new service/branch/commit with no releases and no merge-base
ancestry anywhere. -/
def testDB_x : DB :=
  { branches := [⟨1, "bx", "mx", 1⟩],
    iterations := [⟨1, "cx", 1, "ix"⟩],
    releases := [],
    configs := [],
    pipelines := [],
    nextConfigId := 1,
    nextReleaseId := 1 }

/-- **C3.** Branch-local inheritance: when the branch already has a released
iteration, the resolver answers with the Config of the most recent release
(greatest creation order) among the releases whose iteration belongs to the
same branch, the iteration being processed excluded, and does not modify the
store. -/
theorem resolveConfig_branch_local (db : DB) (b : BranchRow) (cur : Nat)
    (r : ReleaseRow)
    (hmem : r ∈ branchLocalReleases db b.branch_id cur)
    (hmax : ∀ x ∈ branchLocalReleases db b.branch_id cur,
      x ≠ r → x.release_id < r.release_id) :
    resolveConfig db b cur = (r.config_id, db) := by
  cases hm : mostRecent (branchLocalReleases db b.branch_id cur) with
  | none =>
      rw [mostRecent_eq_none] at hm
      rw [hm] at hmem
      simp at hmem
  | some m =>
      have hmm := mostRecent_mem hm
      have hle := mostRecent_le hm r hmem
      have heq : m = r := by
        by_contra hne
        exact absurd hle (not_le.mpr (hmax m hmm hne))
      subst heq
      unfold resolveConfig
      rw [hm]

/-- Witness for C3 at the test's concrete input: with releases ConfigA on
`c/i` and later ConfigB on `c2/i2` on branch `b`, the new iteration `c4/i4`
(id 5) on branch `b` resolves to ConfigB (config 3, serialized as
`"B"=>"b"`). -/
theorem resolveConfig_branch_local_witness :
    ((⟨3, 3, 3, 0⟩ : ReleaseRow) ∈ branchLocalReleases testDB_c4 2 5)
      ∧ (∀ x ∈ branchLocalReleases testDB_c4 2 5,
          x ≠ (⟨3, 3, 3, 0⟩ : ReleaseRow) → x.release_id < 3)
      ∧ resolveConfig testDB_c4 ⟨2, "b", "mb", 1⟩ 5 = (3, testDB_c4)
      ∧ (⟨3, "\"B\"=>\"b\""⟩ : ConfigRow) ∈ testDB_c4.configs :=
  ⟨by decide, by decide,
   resolveConfig_branch_local testDB_c4 ⟨2, "b", "mb", 1⟩ 5 ⟨3, 3, 3, 0⟩
     (by decide) (by decide),
   by decide⟩

/-- **C4.** Merge-base inheritance: when the branch itself has no prior
release, the resolver answers with the Config of the most recent release
attached to the iteration(s) sharing the branch's merge-base commit hash on
any branch of the same service, and does not modify the store. -/
theorem resolveConfig_merge_base (db : DB) (b : BranchRow) (cur : Nat)
    (r : ReleaseRow)
    (hnone : branchLocalReleases db b.branch_id cur = [])
    (hmem : r ∈ mergeBaseReleases db b)
    (hmax : ∀ x ∈ mergeBaseReleases db b,
      x ≠ r → x.release_id < r.release_id) :
    resolveConfig db b cur = (r.config_id, db) := by
  cases hm : mostRecent (mergeBaseReleases db b) with
  | none =>
      rw [mostRecent_eq_none] at hm
      rw [hm] at hmem
      simp at hmem
  | some m =>
      have hmm := mostRecent_mem hm
      have hle := mostRecent_le hm r hmem
      have heq : m = r := by
        by_contra hne
        exact absurd hle (not_le.mpr (hmax m hmm hne))
      subst heq
      unfold resolveConfig
      rw [hnone, hm]
      rfl

/-- Witness for C4 at the test's concrete input: the new iteration `c6/i6`
(id 5) on branch `b3`, whose merge base commit `c` was released with ConfigA,
resolves to ConfigA (config 2, serialized as `"A"=>"a"`). -/
theorem resolveConfig_merge_base_witness :
    branchLocalReleases testDB_c6 4 5 = []
      ∧ ((⟨2, 2, 2, 0⟩ : ReleaseRow) ∈ mergeBaseReleases testDB_c6 ⟨4, "b3", "c", 1⟩)
      ∧ (∀ x ∈ mergeBaseReleases testDB_c6 ⟨4, "b3", "c", 1⟩,
          x ≠ (⟨2, 2, 2, 0⟩ : ReleaseRow) → x.release_id < 2)
      ∧ resolveConfig testDB_c6 ⟨4, "b3", "c", 1⟩ 5 = (2, testDB_c6)
      ∧ (⟨2, "\"A\"=>\"a\""⟩ : ConfigRow) ∈ testDB_c6.configs :=
  ⟨by decide, by decide, by decide,
   resolveConfig_merge_base testDB_c6 ⟨4, "b3", "c", 1⟩ 5 ⟨2, 2, 2, 0⟩
     (by decide) (by decide) (by decide),
   by decide⟩

/-- **C5.** Default fallback: with no prior release on the branch and none
reachable through its merge base, the resolver returns the empty Config
(zero pairs, serialized as the empty string), idempotently creating its row
if absent — afterwards exactly one empty-config row is stored — and the
release then created for the iteration references that empty Config. -/
theorem resolveConfig_default_empty (db : DB) (b : BranchRow) (cur pid : Nat)
    (h1 : branchLocalReleases db b.branch_id cur = [])
    (h2 : mergeBaseReleases db b = [])
    (h3 : (db.configs.filter (fun c => c.key_value_pairs == "")).length ≤ 1) :
    (∃ c ∈ ((resolveConfig db b cur).2).configs,
        c.config_id = (resolveConfig db b cur).1 ∧ c.key_value_pairs = "")
      ∧ (((resolveConfig db b cur).2).configs.filter
          (fun c => c.key_value_pairs == "")).length = 1
      ∧ ∃ r ∈ ((resolveAndRelease db b cur pid).2).releases,
          r.iteration_id = cur ∧ r.config_id = (resolveConfig db b cur).1 := by
  have htrunc : truncVal "" = "" := rfl
  have hres : resolveConfig db b cur = idemMakeConfig db "" := by
    unfold resolveConfig
    rw [h1, h2]
    rfl
  unfold resolveAndRelease
  rw [hres]
  unfold idemMakeConfig
  rw [htrunc]
  cases hf : db.configs.find? (fun c => c.key_value_pairs == "") with
  | some c =>
      simp only [hf]
      have hcmem := List.mem_of_find?_eq_some hf
      have hckvp : c.key_value_pairs = "" := by
        simpa using List.find?_some hf
      refine ⟨⟨c, hcmem, rfl, hckvp⟩, ?_, ?_⟩
      · show (db.configs.filter (fun c => c.key_value_pairs == "")).length = 1
        have hmemf : c ∈ db.configs.filter (fun c => c.key_value_pairs == "") :=
          List.mem_filter.mpr ⟨hcmem, by simp [hckvp]⟩
        have hpos : 1 ≤ (db.configs.filter
            (fun c => c.key_value_pairs == "")).length :=
          List.length_pos.mpr (List.ne_nil_of_mem hmemf)
        omega
      · exact ⟨⟨db.nextReleaseId, cur, c.config_id, pid⟩,
          List.mem_append_right _ (List.mem_singleton.mpr rfl), rfl, rfl⟩
  | none =>
      simp only [hf]
      refine ⟨⟨⟨db.nextConfigId, ""⟩,
          List.mem_append_right _ (List.mem_singleton.mpr rfl), rfl, rfl⟩,
        ?_, ?_⟩
      · show ((db.configs ++ [(⟨db.nextConfigId, ""⟩ : ConfigRow)]).filter
            (fun c : ConfigRow => c.key_value_pairs == "")).length = 1
        rw [List.filter_append, find?_eq_none_filter _ _ hf]
        simp
      · exact ⟨⟨db.nextReleaseId, cur, db.nextConfigId, pid⟩,
          List.mem_append_right _ (List.mem_singleton.mpr rfl), rfl, rfl⟩

/-- Witness for C5 at the test's concrete input: a brand-new
service/branch/commit (`bx`, `cx`) with no prior releases and no merge-base
ancestry resolves to the empty configuration, and its release references it. -/
theorem resolveConfig_default_empty_witness :
    branchLocalReleases testDB_x 1 1 = []
      ∧ mergeBaseReleases testDB_x ⟨1, "bx", "mx", 1⟩ = []
      ∧ (testDB_x.configs.filter (fun c => c.key_value_pairs == "")).length ≤ 1
      ∧ ((∃ c ∈ ((resolveConfig testDB_x ⟨1, "bx", "mx", 1⟩ 1).2).configs,
            c.config_id = (resolveConfig testDB_x ⟨1, "bx", "mx", 1⟩ 1).1
              ∧ c.key_value_pairs = "")
        ∧ (((resolveConfig testDB_x ⟨1, "bx", "mx", 1⟩ 1).2).configs.filter
            (fun c => c.key_value_pairs == "")).length = 1
        ∧ ∃ r ∈ ((resolveAndRelease testDB_x ⟨1, "bx", "mx", 1⟩ 1 0).2).releases,
            r.iteration_id = 1
              ∧ r.config_id = (resolveConfig testDB_x ⟨1, "bx", "mx", 1⟩ 1).1) :=
  ⟨by decide, by decide, by decide,
   resolveConfig_default_empty testDB_x ⟨1, "bx", "mx", 1⟩ 1 0
     (by decide) (by decide) (by decide)⟩

/-- The error taxonomy of spec §7 relevant to the handlers: a legacy build
event for a commit never seen, and a failed pipeline-notification call. -/
inductive Err where
  | NotFound
  | RunnerNotifyFailed (release_id : Nat)
deriving Repr, DecidableEq

/-- Modelled from the spec: getters.get_iteration is not under src/. The
legacy handler calls it with the commit hash only, and per spec §6 the legacy
build event requires the iteration to already exist; this lookup yields the
iteration stored for the given commit hash, if any. -/
def get_iteration (db : DB) (commit_hash : String) : Option IterRow :=
  db.iterations.find? (fun it => it.commit_hash == commit_hash)

/-- Modelled from the spec: setters.set_iteration is not under src/. It
overwrites the `image_name` of the iteration row with the given identifier
(spec §4.4 step 2), values being stored under the store's NUL-truncation
text semantics (spec §3). -/
def set_iteration (db : DB) (iid : Nat) (image_name : String) : DB :=
  { db with
      iterations := db.iterations.map (fun it =>
        if it.iteration_id == iid
        then { it with image_name := truncVal image_name }
        else it) }

/-- One step of the release fan-out: reuse the release already binding the
iteration to this pipeline if present, else create one with the next
identifier (spec §4.4 step 4, "create or update a Release entry for each"). -/
def idemReleaseStep (iid cid : Nat) (acc : List Nat × DB) (pid : Nat) :
    List Nat × DB :=
  match acc.2.releases.find?
      (fun r => r.iteration_id == iid && r.pipeline_id == pid) with
  | some r => (acc.1 ++ [r.release_id], acc.2)
  | none =>
      (acc.1 ++ [acc.2.nextReleaseId],
       { acc.2 with
           releases := acc.2.releases ++ [⟨acc.2.nextReleaseId, iid, cid, pid⟩],
           nextReleaseId := acc.2.nextReleaseId + 1 })

/-- Modelled from the spec: factories.idem_release_in_automatic_pipelines is
not under src/. Per spec §4.4 steps 3–4 it resolves the Config for the
iteration's branch (§4.3), then creates or updates a Release entry binding
the iteration to that config for each automatic pipeline of the branch,
returning the affected release identifiers. -/
def idem_release_in_automatic_pipelines (db : DB) (iid : Nat) :
    List Nat × DB :=
  match db.iterations.find? (fun it => it.iteration_id == iid) with
  | none => ([], db)
  | some it =>
      match db.branches.find? (fun br => br.branch_id == it.branch_id) with
      | none => ([], db)
      | some br =>
          (((resolveConfig db br iid).2.pipelines.filter
              (fun p => p.branch_id == br.branch_id)).map
            (fun p => p.pipeline_id)).foldl
            (idemReleaseStep iid (resolveConfig db br iid).1)
            ([], (resolveConfig db br iid).2)

/-- Modelled from the spec: deployment.gce.runner is not under src/. Per
spec §5 and §7, a failed or timed-out Runner call is recorded as a
failed-to-notify condition and surfaced through observability — it is not
raised to the caller and does not block the handler's response. `runnerOk`
records which notifications succeed; the result is the report the call
produces. -/
def runner (runnerOk : Nat → Bool) (release_id : Nat) : List Err :=
  if runnerOk release_id then [] else [.RunnerNotifyFailed release_id]

/-- Embedding of `handle_build` from src/service/handlers.py: look up the
iteration by its commit hash only, set its image name, idempotently create
the releases of the branch's automatic pipelines, invoke the runner once per
affected release, and return the iteration identifier. The first component
is the handler's response, the second the reports the runner calls produced,
the third the resulting store. -/
def handle_build (runnerOk : Nat → Bool) (db : DB)
    (commit_hash image_name : String) : Except Err Nat × List Err × DB :=
  match get_iteration db commit_hash with
  | none => (.error .NotFound, [], db)
  | some it =>
      (.ok it.iteration_id,
       (idem_release_in_automatic_pipelines
           (set_iteration db it.iteration_id image_name) it.iteration_id).1.foldl
         (fun acc rid => acc ++ runner runnerOk rid) [],
       (idem_release_in_automatic_pipelines
           (set_iteration db it.iteration_id image_name) it.iteration_id).2)

lemma resolveConfig_iterations (db : DB) (b : BranchRow) (cur : Nat) :
    (resolveConfig db b cur).2.iterations = db.iterations := by
  unfold resolveConfig idemMakeConfig
  cases mostRecent (branchLocalReleases db b.branch_id cur) with
  | some r => rfl
  | none =>
      cases mostRecent (mergeBaseReleases db b) with
      | some r => rfl
      | none =>
          cases db.configs.find? (fun c => c.key_value_pairs == truncVal "") with
          | some c => rfl
          | none => rfl

lemma idemReleaseStep_iterations (iid cid : Nat) (acc : List Nat × DB)
    (pid : Nat) :
    (idemReleaseStep iid cid acc pid).2.iterations = acc.2.iterations := by
  unfold idemReleaseStep
  cases acc.2.releases.find?
      (fun r => r.iteration_id == iid && r.pipeline_id == pid) with
  | some r => rfl
  | none => rfl

lemma foldl_idemReleaseStep_iterations (iid cid : Nat) (pids : List Nat)
    (acc : List Nat × DB) :
    ((pids.foldl (idemReleaseStep iid cid) acc).2).iterations
      = acc.2.iterations := by
  induction pids generalizing acc with
  | nil => rfl
  | cons p l ih =>
      rw [List.foldl_cons, ih, idemReleaseStep_iterations]

/-- The release fan-out only appends release rows: it never touches the
iteration table. -/
lemma idem_release_iterations (db : DB) (iid : Nat) :
    (idem_release_in_automatic_pipelines db iid).2.iterations
      = db.iterations := by
  unfold idem_release_in_automatic_pipelines
  split
  · rfl
  split
  · rfl
  rw [foldl_idemReleaseStep_iterations]
  exact resolveConfig_iterations db _ iid

lemma mem_foldl_reports_init (runnerOk : Nat → Bool) (ids : List Nat)
    (init : List Err) (e : Err) (h : e ∈ init) :
    e ∈ ids.foldl (fun acc rid => acc ++ runner runnerOk rid) init := by
  induction ids generalizing init with
  | nil => exact h
  | cons a l ih => exact ih _ (List.mem_append_left _ h)

/-- Every failed notification leaves its report in the accumulated output. -/
lemma mem_foldl_reports (runnerOk : Nat → Bool) (ids : List Nat) (rid : Nat)
    (hfail : runnerOk rid = false) :
    ∀ init : List Err, rid ∈ ids →
      Err.RunnerNotifyFailed rid
        ∈ ids.foldl (fun acc r => acc ++ runner runnerOk r) init := by
  induction ids with
  | nil =>
      intro init hmem
      simp at hmem
  | cons a l ih =>
      intro init hmem
      rcases List.mem_cons.mp hmem with rfl | h'
      · refine mem_foldl_reports_init runnerOk l _ _ ?_
        refine List.mem_append_right _ ?_
        simp [runner, hfail]
      · exact ih _ h'

/-- The test context extended with a second iteration carrying the commit
hash `c2` on a different branch. -/
def testDB_dup : DB :=
  { testDB with iterations := testDB.iterations ++ [⟨5, "c2", 3, "other"⟩] }

/-- **C7.** Runner-failure isolation: once the iteration update and the
release rows are persisted, a failing Runner notification neither rolls the
state back (the resulting store does not depend on which notifications
succeed) nor fails the build-handling operation — the handler still answers
with the iteration identifier — and each failed notification is surfaced as
a report, not as the handler's error. -/
theorem handle_build_runner_isolation (runnerOk : Nat → Bool) (db : DB)
    (ch im : String) (it : IterRow)
    (h : get_iteration db ch = some it) :
    (handle_build runnerOk db ch im).1 = Except.ok it.iteration_id
      ∧ (handle_build runnerOk db ch im).2.2
          = (handle_build (fun _ => true) db ch im).2.2
      ∧ ∀ rid ∈ (idem_release_in_automatic_pipelines
            (set_iteration db it.iteration_id im) it.iteration_id).1,
          runnerOk rid = false →
            Err.RunnerNotifyFailed rid ∈ (handle_build runnerOk db ch im).2.1 := by
  unfold handle_build
  simp only [h]
  exact ⟨trivial, trivial,
    fun rid hmem hfail => mem_foldl_reports runnerOk _ rid hfail [] hmem⟩

/-- Witness for C7 at a concrete input: with every Runner call failing, the
build of `c2` still answers `ok 3`, the resulting store equals the one of an
all-successful run, and the failure is reported. -/
theorem handle_build_runner_isolation_witness :
    get_iteration testDB "c2" = some ⟨3, "c2", 2, "i2"⟩
      ∧ (handle_build (fun _ => false) testDB "c2" "i5").1 = Except.ok 3
      ∧ (handle_build (fun _ => false) testDB "c2" "i5").2.2
          = (handle_build (fun _ => true) testDB "c2" "i5").2.2
      ∧ (handle_build (fun _ => false) testDB "c2" "i5").2.1
          = [Err.RunnerNotifyFailed 5] :=
  ⟨by decide,
   (handle_build_runner_isolation (fun _ => false) testDB "c2" "i5"
      ⟨3, "c2", 2, "i2"⟩ (by decide)).1,
   (handle_build_runner_isolation (fun _ => false) testDB "c2" "i5"
      ⟨3, "c2", 2, "i2"⟩ (by decide)).2.1,
   by decide⟩

/-- **C8.** Legacy build-event precondition: when no iteration exists for the
commit hash the handler fails with `NotFound` and changes nothing; when one
exists, the handler answers with its iteration identifier and every stored
row with that identifier carries the supplied image name (as stored under the
store's NUL-truncation text semantics), any prior value overwritten. -/
theorem handle_build_legacy_contract (runnerOk : Nat → Bool) (db : DB)
    (ch im : String) :
    (get_iteration db ch = none →
        handle_build runnerOk db ch im = (Except.error Err.NotFound, [], db))
      ∧ ∀ it, get_iteration db ch = some it →
          (handle_build runnerOk db ch im).1 = Except.ok it.iteration_id
            ∧ (∃ row ∈ (handle_build runnerOk db ch im).2.2.iterations,
                row.iteration_id = it.iteration_id
                  ∧ row.image_name = truncVal im)
            ∧ ∀ row ∈ (handle_build runnerOk db ch im).2.2.iterations,
                row.iteration_id = it.iteration_id →
                  row.image_name = truncVal im := by
  constructor
  · intro h
    unfold handle_build
    simp only [h]
  · intro it h
    have hfind : db.iterations.find? (fun x => x.commit_hash == ch) = some it := h
    have hit : it ∈ db.iterations := List.mem_of_find?_eq_some hfind
    have hiters : (handle_build runnerOk db ch im).2.2.iterations
        = db.iterations.map (fun x =>
            if x.iteration_id == it.iteration_id
            then { x with image_name := truncVal im } else x) := by
      unfold handle_build
      simp only [h]
      show (idem_release_in_automatic_pipelines
          (set_iteration db it.iteration_id im) it.iteration_id).2.iterations = _
      rw [idem_release_iterations]
      rfl
    refine ⟨?_, ?_, ?_⟩
    · unfold handle_build
      simp only [h]
    · rw [hiters]
      have hf : (fun x => if x.iteration_id == it.iteration_id
          then { x with image_name := truncVal im } else x) it
          = { it with image_name := truncVal im } := by
        simp
      refine ⟨{ it with image_name := truncVal im }, ?_, rfl, rfl⟩
      rw [← hf]
      exact List.mem_map_of_mem _ hit
    · rw [hiters]
      intro row hrow hid
      obtain ⟨x, hx, rfl⟩ := List.mem_map.mp hrow
      by_cases hb : x.iteration_id == it.iteration_id
      · simp [hb]
      · rw [if_neg hb] at hid ⊢
        exact absurd (beq_iff_eq.mpr hid) hb

/-- Witness for C8 at concrete inputs: the unseen commit `nope` fails with
`NotFound` and leaves the store untouched; the known commit `c2` answers
`ok 3` and stores the supplied image name `i9`. -/
theorem handle_build_legacy_contract_witness :
    get_iteration testDB "nope" = none
      ∧ handle_build (fun _ => true) testDB "nope" "i9"
          = (Except.error Err.NotFound, [], testDB)
      ∧ get_iteration testDB "c2" = some ⟨3, "c2", 2, "i2"⟩
      ∧ (handle_build (fun _ => true) testDB "c2" "i9").1 = Except.ok 3
      ∧ (∃ row ∈ (handle_build (fun _ => true) testDB "c2" "i9").2.2.iterations,
          row.iteration_id = 3 ∧ row.image_name = truncVal "i9")
      ∧ truncVal "i9" = "i9" :=
  ⟨by decide,
   (handle_build_legacy_contract (fun _ => true) testDB "nope" "i9").1 (by decide),
   by decide,
   ((handle_build_legacy_contract (fun _ => true) testDB "c2" "i9").2
      ⟨3, "c2", 2, "i2"⟩ (by decide)).1,
   ((handle_build_legacy_contract (fun _ => true) testDB "c2" "i9").2
      ⟨3, "c2", 2, "i2"⟩ (by decide)).2.1,
   by decide⟩

/-- **C10.** The legacy build handler locates the iteration by commit hash
alone: the lookup consults no branch identifier (it is invariant under any
change of the stored branches), so when the same commit hash exists on
several branches, the image update and the returned identifier apply to the
single iteration the lookup yields, while every other iteration row with
that commit hash is left untouched. -/
theorem handle_build_commit_only (runnerOk : Nat → Bool) (db : DB)
    (ch im : String) (i1 i2 : IterRow)
    (h1 : get_iteration db ch = some i1)
    (h2 : i2 ∈ db.iterations)
    (hne : i2.iteration_id ≠ i1.iteration_id) :
    (handle_build runnerOk db ch im).1 = Except.ok i1.iteration_id
      ∧ i2 ∈ (handle_build runnerOk db ch im).2.2.iterations
      ∧ ∀ bs : List BranchRow,
          get_iteration { db with branches := bs } ch = get_iteration db ch := by
  have hiters : (handle_build runnerOk db ch im).2.2.iterations
      = db.iterations.map (fun x =>
          if x.iteration_id == i1.iteration_id
          then { x with image_name := truncVal im } else x) := by
    unfold handle_build
    simp only [h1]
    show (idem_release_in_automatic_pipelines
        (set_iteration db i1.iteration_id im) i1.iteration_id).2.iterations = _
    rw [idem_release_iterations]
    rfl
  refine ⟨?_, ?_, fun bs => rfl⟩
  · unfold handle_build
    simp only [h1]
  · rw [hiters]
    have hb : (i2.iteration_id == i1.iteration_id) = false :=
      beq_eq_false_iff_ne.mpr hne
    have hf : (fun x => if x.iteration_id == i1.iteration_id
        then { x with image_name := truncVal im } else x) i2 = i2 := by
      simp [hb]
    rw [← hf]
    exact List.mem_map_of_mem _ h2

/-- Witness for C10 at a concrete input: commit `c2` exists on branches 2
and 3; the build applies to iteration 3 (the one the lookup yields) and
leaves iteration 5 on the other branch untouched. -/
theorem handle_build_commit_only_witness :
    get_iteration testDB_dup "c2" = some ⟨3, "c2", 2, "i2"⟩
      ∧ (⟨5, "c2", 3, "other"⟩ : IterRow) ∈ testDB_dup.iterations
      ∧ ((handle_build (fun _ => true) testDB_dup "c2" "i9").1 = Except.ok 3
        ∧ (⟨5, "c2", 3, "other"⟩ : IterRow)
            ∈ (handle_build (fun _ => true) testDB_dup "c2" "i9").2.2.iterations
        ∧ ∀ bs : List BranchRow,
            get_iteration { testDB_dup with branches := bs } "c2"
              = get_iteration testDB_dup "c2") :=
  ⟨by decide, by decide,
   handle_build_commit_only (fun _ => true) testDB_dup "c2" "i9"
     ⟨3, "c2", 2, "i2"⟩ ⟨5, "c2", 3, "other"⟩ (by decide) (by decide) (by decide)⟩

lemma save_mem_rows (u a : List ColName) (vs : List String) (t : Table)
    (r : Row) (h : r ∈ t.rows) : r ∈ (save u a vs t).2.rows := by
  unfold save
  cases hf : t.rows.find? (matchesUnique u (truncRow a vs)) with
  | some r' =>
      simp only [hf]
      exact h
  | none =>
      simp only [hf]
      exact List.mem_append_left _ h

/-- `save` always leaves a matching row carrying the identifier it returns. -/
lemma save_returns_matching (u a : List ColName) (vs : List String)
    (t : Table) :
    ∃ r ∈ (save u a vs t).2.rows,
      matchesUnique u (truncRow a vs) r = true ∧ r.id = (save u a vs t).1 := by
  unfold save
  cases hf : t.rows.find? (matchesUnique u (truncRow a vs)) with
  | some r =>
      simp only [hf]
      exact ⟨r, List.mem_of_find?_eq_some hf, List.find?_some hf, rfl⟩
  | none =>
      simp only [hf]
      exact ⟨{ id := t.nextId, vals := truncRow a vs },
        List.mem_append_right _ (List.mem_singleton.mpr rfl),
        matchesUnique_self u (truncRow a vs), rfl⟩

/-- The local state of one concurrent `save` caller: before its lookup, after
a missed lookup (about to attempt the insert), or finished with the returned
identifier. -/
inductive ProcState where
  | start
  | needInsert
  | done (id : Nat)
deriving Repr, DecidableEq

/-- One atomic step of a concurrent `save` caller against the shared table.
From `start`, the lookup (spec §4.1 step 2): a caller that finds a matching
row finishes with its identifier, otherwise it proceeds to the insert
attempt. From `needInsert`, the atomic conditional insert mandated by spec
§4.1/§9: the store's unique constraint makes the insert attempt and the
conflict-and-re-read one atomic `save`, so the loser of a race finishes with
the winner's identifier instead of creating a second row. -/
def procStep (u a : List ColName) (vs : List String) (t : Table) :
    ProcState → ProcState × Table
  | .start =>
      match t.rows.find? (matchesUnique u (truncRow a vs)) with
      | some r => (.done r.id, t)
      | none => (.needInsert, t)
  | .needInsert => (.done (save u a vs t).1, (save u a vs t).2)
  | .done i => (.done i, t)

/-- The shared table together with every caller's local state. -/
structure Sys where
  table : Table
  procs : List ProcState
deriving Repr, DecidableEq

/-- Scheduler step: caller `i` performs its next atomic action. -/
def sysStep (u a : List ColName) (vs : List String) (s : Sys) (i : Nat) :
    Sys :=
  match s.procs[i]? with
  | none => s
  | some p =>
      { table := (procStep u a vs s.table p).2,
        procs := s.procs.set i (procStep u a vs s.table p).1 }

/-- Run a schedule: an arbitrary interleaving of the callers' atomic steps. -/
def runSched (u a : List ColName) (vs : List String) : Sys → List Nat → Sys
  | s, [] => s
  | s, i :: rest => runSched u a vs (sysStep u a vs s i) rest

/-- The race of `n` concurrent `save` callers for one key, starting from
table `t0`, under schedule `sched`. -/
def raceRun (u a : List ColName) (vs : List String) (t0 : Table) (n : Nat)
    (sched : List Nat) : Sys :=
  runSched u a vs { table := t0, procs := List.replicate n ProcState.start }
    sched

/-- Invariant of the race: at most one stored row matches the key, and every
finished caller holds the identifier of a stored matching row. -/
def SysInv (u a : List ColName) (vs : List String) (s : Sys) : Prop :=
  countMatching u (truncRow a vs) s.table ≤ 1
    ∧ ∀ p ∈ s.procs, ∀ j, p = ProcState.done j →
        ∃ r ∈ s.table.rows,
          matchesUnique u (truncRow a vs) r = true ∧ r.id = j

lemma sysStep_inv (u a : List ColName) (vs : List String) (s : Sys) (i : Nat)
    (h : SysInv u a vs s) : SysInv u a vs (sysStep u a vs s i) := by
  obtain ⟨hcount, hdone⟩ := h
  unfold sysStep
  cases hp : s.procs[i]? with
  | none => exact ⟨hcount, hdone⟩
  | some p =>
      cases p with
      | start =>
          unfold procStep
          cases hf : s.table.rows.find? (matchesUnique u (truncRow a vs)) with
          | some r =>
              simp only [hf]
              refine ⟨hcount, ?_⟩
              intro q hq j hj
              rcases List.mem_or_eq_of_mem_set hq with hq' | rfl
              · exact hdone q hq' j hj
              · injection hj with hj'
                subst hj'
                exact ⟨r, List.mem_of_find?_eq_some hf, List.find?_some hf, rfl⟩
          | none =>
              simp only [hf]
              refine ⟨hcount, ?_⟩
              intro q hq j hj
              rcases List.mem_or_eq_of_mem_set hq with hq' | rfl
              · exact hdone q hq' j hj
              · exact ProcState.noConfusion hj
      | needInsert =>
          refine ⟨?_, ?_⟩
          · have hle := countMatching_save_le u a vs s.table
            show countMatching u (truncRow a vs) (save u a vs s.table).2 ≤ 1
            omega
          · intro q hq j hj
            rcases List.mem_or_eq_of_mem_set hq with hq' | rfl
            · obtain ⟨r, hr, hpr, hid⟩ := hdone q hq' j hj
              exact ⟨r, save_mem_rows u a vs s.table r hr, hpr, hid⟩
            · injection hj with hj'
              subst hj'
              exact save_returns_matching u a vs s.table
      | done k =>
          refine ⟨hcount, ?_⟩
          intro q hq j hj
          rcases List.mem_or_eq_of_mem_set hq with hq' | rfl
          · exact hdone q hq' j hj
          · exact hdone (ProcState.done k) (List.getElem?_mem hp) j hj

lemma runSched_inv (u a : List ColName) (vs : List String) (sched : List Nat)
    (s : Sys) (h : SysInv u a vs s) :
    SysInv u a vs (runSched u a vs s sched) := by
  induction sched generalizing s with
  | nil => exact h
  | cons i rest ih => exact ih _ (sysStep_inv u a vs s i h)

lemma runSched_procs_length (u a : List ColName) (vs : List String)
    (sched : List Nat) (s : Sys) :
    (runSched u a vs s sched).procs.length = s.procs.length := by
  induction sched generalizing s with
  | nil => rfl
  | cons i rest ih =>
      rw [show runSched u a vs s (i :: rest)
          = runSched u a vs (sysStep u a vs s i) rest from rfl, ih]
      unfold sysStep
      cases hp : s.procs[i]? with
      | none => rfl
      | some p =>
          simp only [hp]
          exact List.length_set s.procs i _

lemma two_le_length_of_mem_ne {α : Type} {l : List α} {a b : α} (ha : a ∈ l)
    (hb : b ∈ l) (hne : a ≠ b) : 2 ≤ l.length := by
  obtain ⟨s, t, rfl⟩ := List.append_of_mem ha
  rcases List.mem_append.mp hb with hbs | hbt
  · have hpos := List.length_pos.mpr (List.ne_nil_of_mem hbs)
    rw [List.length_append, List.length_cons]
    omega
  · rcases List.mem_cons.mp hbt with rfl | hbt'
    · exact absurd rfl hne
    · have hpos := List.length_pos.mpr (List.ne_nil_of_mem hbt')
      rw [List.length_append, List.length_cons]
      omega

/-- Under the at-most-one bound, two stored matching rows coincide. -/
lemma matching_row_unique (u a : List ColName) (vs : List String) (t : Table)
    (hcount : countMatching u (truncRow a vs) t ≤ 1) (r r' : Row)
    (hr : r ∈ t.rows) (hr' : r' ∈ t.rows)
    (hpr : matchesUnique u (truncRow a vs) r = true)
    (hpr' : matchesUnique u (truncRow a vs) r' = true) : r = r' := by
  by_contra hne
  have h1 : r ∈ t.rows.filter (matchesUnique u (truncRow a vs)) :=
    List.mem_filter.mpr ⟨hr, hpr⟩
  have h2 : r' ∈ t.rows.filter (matchesUnique u (truncRow a vs)) :=
    List.mem_filter.mpr ⟨hr', hpr'⟩
  have hlen := two_le_length_of_mem_ne h1 h2 hne
  unfold countMatching at hcount
  omega

/-- **C9.** Concurrent upsert agreement: for any number of callers racing to
`save` the same unique key into a table with no matching row, under every
interleaving of their lookup and conditional-insert steps, once all callers
have finished there is exactly one stored row matching the key and every
caller holds that row's identifier — the conflict is resolved internally
(the loser re-reads the winner's row) and no caller observes an error. -/
theorem save_concurrent_agreement (u a : List ColName) (vs : List String)
    (t0 : Table) (n : Nat) (sched : List Nat)
    (hinit : countMatching u (truncRow a vs) t0 = 0)
    (hn : 0 < n)
    (hdone : ∀ p ∈ (raceRun u a vs t0 n sched).procs,
      ∃ j, p = ProcState.done j) :
    countMatching u (truncRow a vs) (raceRun u a vs t0 n sched).table = 1
      ∧ ∃ r ∈ (raceRun u a vs t0 n sched).table.rows,
          matchesUnique u (truncRow a vs) r = true
            ∧ ∀ p ∈ (raceRun u a vs t0 n sched).procs,
                p = ProcState.done r.id := by
  have hinv : SysInv u a vs (raceRun u a vs t0 n sched) := by
    apply runSched_inv
    refine ⟨by simp [hinit], ?_⟩
    intro p hp j hj
    rw [List.eq_of_mem_replicate hp] at hj
    exact ProcState.noConfusion hj
  obtain ⟨hcount, hdoneRow⟩ := hinv
  have hlen : (raceRun u a vs t0 n sched).procs.length = n := by
    unfold raceRun
    rw [runSched_procs_length]
    exact List.length_replicate n ProcState.start
  obtain ⟨p0, hp0⟩ :=
    List.exists_mem_of_length_pos (l := (raceRun u a vs t0 n sched).procs)
      (by omega)
  obtain ⟨j0, hj0⟩ := hdone p0 hp0
  obtain ⟨r, hr, hpr, hid⟩ := hdoneRow p0 hp0 j0 hj0
  refine ⟨?_, r, hr, hpr, ?_⟩
  · have h1 : r ∈ (raceRun u a vs t0 n sched).table.rows.filter
        (matchesUnique u (truncRow a vs)) := List.mem_filter.mpr ⟨hr, hpr⟩
    have hpos := List.length_pos.mpr (List.ne_nil_of_mem h1)
    unfold countMatching at hcount ⊢
    omega
  · intro q hq
    obtain ⟨j, hj⟩ := hdone q hq
    obtain ⟨r', hr', hpr', hid'⟩ := hdoneRow q hq j hj
    have hrr : r = r' :=
      matching_row_unique u a vs _ hcount r r' hr hr' hpr hpr'
    rw [hj, ← hid', hrr]

/-- Witness for C9 at a concrete race: three callers, all of whom perform
their lookup before any insert happens, then insert/re-read in turn — one
row is stored and all three finish with its identifier. -/
theorem save_concurrent_agreement_witness :
    countMatching ["commit_hash", "branch_id"]
        (truncRow ["commit_hash", "branch_id", "image_name"] ["c", "1", "A"])
        { nextId := 1, rows := [] } = 0
      ∧ 0 < 3
      ∧ (∀ p ∈ (raceRun ["commit_hash", "branch_id"]
            ["commit_hash", "branch_id", "image_name"] ["c", "1", "A"]
            { nextId := 1, rows := [] } 3 [0, 1, 2, 0, 1, 2]).procs,
          ∃ j, p = ProcState.done j)
      ∧ (countMatching ["commit_hash", "branch_id"]
            (truncRow ["commit_hash", "branch_id", "image_name"] ["c", "1", "A"])
            (raceRun ["commit_hash", "branch_id"]
              ["commit_hash", "branch_id", "image_name"] ["c", "1", "A"]
              { nextId := 1, rows := [] } 3 [0, 1, 2, 0, 1, 2]).table = 1
        ∧ ∃ r ∈ (raceRun ["commit_hash", "branch_id"]
              ["commit_hash", "branch_id", "image_name"] ["c", "1", "A"]
              { nextId := 1, rows := [] } 3 [0, 1, 2, 0, 1, 2]).table.rows,
            matchesUnique ["commit_hash", "branch_id"]
                (truncRow ["commit_hash", "branch_id", "image_name"]
                  ["c", "1", "A"]) r = true
              ∧ ∀ p ∈ (raceRun ["commit_hash", "branch_id"]
                    ["commit_hash", "branch_id", "image_name"] ["c", "1", "A"]
                    { nextId := 1, rows := [] } 3 [0, 1, 2, 0, 1, 2]).procs,
                  p = ProcState.done r.id) := by
  have hprocs : (raceRun ["commit_hash", "branch_id"]
      ["commit_hash", "branch_id", "image_name"] ["c", "1", "A"]
      { nextId := 1, rows := [] } 3 [0, 1, 2, 0, 1, 2]).procs
      = [ProcState.done 1, ProcState.done 1, ProcState.done 1] := by decide
  have hdone : ∀ p ∈ (raceRun ["commit_hash", "branch_id"]
      ["commit_hash", "branch_id", "image_name"] ["c", "1", "A"]
      { nextId := 1, rows := [] } 3 [0, 1, 2, 0, 1, 2]).procs,
      ∃ j, p = ProcState.done j := by
    intro p hp
    rw [hprocs] at hp
    simp at hp
    exact ⟨1, hp⟩
  exact ⟨by decide, by decide, hdone,
    save_concurrent_agreement ["commit_hash", "branch_id"]
      ["commit_hash", "branch_id", "image_name"] ["c", "1", "A"]
      { nextId := 1, rows := [] } 3 [0, 1, 2, 0, 1, 2]
      (by decide) (by decide) hdone⟩

end Herd
